import Mathlib

/-!
Shallow embedding of the command-line option registry and parser from
`src/flag/mod.rs` (crate `command-option`).

`Rc<RefCell<String>>` cells are modelled as addresses into an explicit store
of strings, so that `Rc::clone` (aliasing) is sharing of an address and
`Clone` of an `ItemValue` copies the container of addresses while keeping the
addresses (the cells) shared — exactly the Rust semantics the parser relies
on.  `VecDeque` is modelled as `List` (`push_back` is append at the tail,
indexing is positional).  `isize` is `Int`, `usize` indices are `Nat`; the
source only casts `value_len as usize` under a `value_len >= 0` guard, so the
cast is modelled by `Int.toNat`.  `std::process::exit(0)` sites are modelled
by terminal outcomes carrying the exit code 0; `env::args()` is a token-list
parameter.
-/

namespace CommandOption

/-- The store of shared string cells.  An `RcValue = Rc<RefCell<String>>` is
an address (`Nat`) into the store; allocation appends at the end. -/
abbrev Store := List String

/-- Reading a cell (`v.borrow()`).  Valid addresses are always in range; the
`""` default is never hit on the states the program builds. -/
def readCell (s : Store) (a : Nat) : String := s.getD a ""

/-- `ItemValue` from the source: `Single` one shared cell, `Multi` an ordered
sequence of shared cells.  `Clone` copies the container but shares the cells,
which the address representation models exactly (the `List Nat` is copied as
a value, the addresses keep pointing at the same store slots). -/
inductive ItemValue where
  | Single : Nat → ItemValue
  | Multi : List Nat → ItemValue
deriving DecidableEq

/-- The cells (addresses) held by an `ItemValue`. -/
def ItemValue.cells : ItemValue → List Nat
  | .Single a => [a]
  | .Multi l => l

/-- The sequence of strings seen through a container of cells. -/
def readSeq (s : Store) (addrs : List Nat) : List String := addrs.map (readCell s)

/-- `struct Item { value, desc, is, value_len }`: a registered option with
its value, description, "was supplied" flag and arity. -/
structure Item where
  value : ItemValue
  desc : String
  is : Bool
  value_len : Int
deriving DecidableEq

/-- `struct Flag { help, keys, is_warning }`: the registry.  The `HashMap` is
modelled as an association list with first-match lookup and replace-on-insert,
which matches `HashMap::get` / `HashMap::insert` observationally. -/
structure Flag where
  help : String
  keys : List (String × Item)
  is_warning : Bool
deriving DecidableEq

/-- `pub struct Value { pub v: ItemValue }`: the caller-facing handle. -/
structure Value where
  v : ItemValue
deriving DecidableEq

/-- `Value::new`. -/
def Value.new (v : ItemValue) : Value := ⟨v⟩

/-- `enum ReadStatus { Processing, Finish }`. -/
inductive ReadStatus where
  | Processing
  | Finish
deriving DecidableEq

/-- `struct Reader { value, value_len, index }`: the transient per-key
consumption state machine. -/
structure Reader where
  value : ItemValue
  value_len : Int
  index : Nat
deriving DecidableEq

/-- `Reader::process`: writes `arg` at position `index` (for `Single` the one
cell is overwritten; for `Multi` the cell at `index` is overwritten when it
exists, else a fresh cell holding `arg` is pushed at the back), increments
`index`, then reports `Finish` iff `value_len >= 0` and the incremented index
equals `value_len as usize`.  Returns the updated reader, the updated store
and the status. -/
def Reader.process (r : Reader) (arg : String) (s : Store) :
    Reader × Store × ReadStatus :=
  let vs :=
    match r.value with
    | .Single a => (ItemValue.Single a, s.set a arg)
    | .Multi l =>
        if r.index < l.length then
          (ItemValue.Multi l, s.set (l.getD r.index 0) arg)
        else
          (ItemValue.Multi (l ++ [s.length]), s ++ [arg])
  let idx := r.index + 1
  let st :=
    if r.value_len < 0 then ReadStatus.Processing
    else if idx = r.value_len.toNat then ReadStatus.Finish
    else ReadStatus.Processing
  (⟨vs.1, r.value_len, idx⟩, vs.2, st)

/-- `Reader::next_key`: `Finish` when `value_len < 0` or when `index` equals
`value_len as usize`, else `Processing`.  Takes `&self`: no state change. -/
def Reader.next_key (r : Reader) : ReadStatus :=
  if r.value_len < 0 then ReadStatus.Finish
  else if r.index ≠ r.value_len.toNat then ReadStatus.Processing
  else ReadStatus.Finish

/-- `Reader::new`. -/
def Reader.new (value : ItemValue) (value_len : Int) : Reader :=
  ⟨value, value_len, 0⟩

/-- `impl ToItem for String`: allocates one fresh cell holding the string. -/
def toItemString (v : String) (s : Store) : ItemValue × Store :=
  (ItemValue.Single s.length, s ++ [v])

/-- `impl ToItem for u32`: `self.to_string()` into one fresh cell. -/
def toItemU32 (n : Nat) (s : Store) : ItemValue × Store :=
  toItemString (toString n) s

/-- `impl ToItem for VecDeque<String>`: allocates one fresh cell per element,
front to back, so the addresses are consecutive from the old store length. -/
def toItemStrVec (vs : List String) (s : Store) : ItemValue × Store :=
  (ItemValue.Multi (List.range' s.length vs.length), s ++ vs)

/-- Outcome of a `parse` run.  `ok` is normal return; `helpExit` and
`panicExit` model the `std::process::exit(0)` sites (`Flag::exit` after
`print_help`, and `fn panic` after printing the message), carrying the exit
status code that the source passes to `exit`. -/
inductive ParseResult where
  | ok
  | helpExit (code : Nat)
  | panicExit (msg : String) (code : Nat)
deriving DecidableEq

/-- `fn panic<T: Display>(msg: T)`: prints the message, then
`std::process::exit(0)`. -/
def panicCall (msg : String) : ParseResult := ParseResult.panicExit msg 0

/-- The message `format!("the parameters before the {} parameter are not
matched", arg)` printed on an ordering error. -/
def orderErrMsg (arg : String) : String :=
  "the parameters before the " ++ arg ++ " parameter are not matched"

/-- `HashMap::get` on the key map. -/
def keysGet : List (String × Item) → String → Option Item
  | [], _ => none
  | (k, it) :: rest, key => if k = key then some it else keysGet rest key

/-- `HashMap::insert` on the key map: replaces an existing binding, else
adds one. -/
def keysInsert : List (String × Item) → String → Item → List (String × Item)
  | [], key, it => [(key, it)]
  | (k, it') :: rest, key, it =>
      if k = key then (key, it) :: rest else (k, it') :: keysInsert rest key it

/-- `Flag::register_with_desc`: builds the default `ItemValue` (allocating
its cells), stores an `Item` with `is = false`, and returns a `Value` handle
around the same `ItemValue` (`r.clone()` shares the cells; here the address
list is shared verbatim). -/
def Flag.register_with_desc (f : Flag) (s : Store) (key : String)
    (defaultItem : Store → ItemValue × Store) (desc : String)
    (value_len : Int) : Value × Flag × Store :=
  let rs := defaultItem s
  (Value.new rs.1,
   { f with keys := keysInsert f.keys key ⟨rs.1, desc, false, value_len⟩ },
   rs.2)

/-- `Flag::reg_string`: scalar string option, arity 1. -/
def Flag.reg_string (f : Flag) (s : Store) (key default desc : String) :
    Value × Flag × Store :=
  f.register_with_desc s key (toItemString default) desc 1

/-- `Flag::reg_u32`: scalar numeric option, arity 1. -/
def Flag.reg_u32 (f : Flag) (s : Store) (key : String) (default : Nat)
    (desc : String) : Value × Flag × Store :=
  f.register_with_desc s key (toItemU32 default) desc 1

/-- `Flag::reg_fixed_str_vec`: fixed-arity sequence option whose arity is the
length of its default. -/
def Flag.reg_fixed_str_vec (f : Flag) (s : Store) (key : String)
    (default : List String) (desc : String) : Value × Flag × Store :=
  f.register_with_desc s key (toItemStrVec default) desc (default.length : Int)

/-- `Flag::reg_lengthen_str_vec`: open-ended sequence option, arity `-1`. -/
def Flag.reg_lengthen_str_vec (f : Flag) (s : Store) (key : String)
    (default : List String) (desc : String) : Value × Flag × Store :=
  f.register_with_desc s key (toItemStrVec default) desc (-1)

/-- `Flag::has`: the stored `is` flag, `false` for unregistered keys. -/
def Flag.has (f : Flag) (key : String) : Bool :=
  match keysGet f.keys key with
  | some v => v.is
  | none => false

/-- `Flag::new`. -/
def Flag.new : Flag := ⟨"--help", [], true⟩

/-- `Flag::set_help`. -/
def Flag.set_help (f : Flag) (h : String) : Flag := { f with help := h }

/-- `Flag::set_warning`. -/
def Flag.set_warning (f : Flag) : Flag := { f with is_warning := true }

/-- `Flag::set_nowarning`. -/
def Flag.set_nowarning (f : Flag) : Flag := { f with is_warning := false }

/-- The loop body of `Flag::parse` over the remaining tokens, carrying the
mutable loop state (`reader`, `read_status`) and the store.  Token order:
the help sentinel is checked first (help fires even mid-parse); then key
lookup — on a match, `next_key` of the active reader (or the stale
`read_status` when none is active) decides between the fatal ordering error
and starting a fresh reader on a clone of the item's value; otherwise the
token feeds the active reader, which is dropped on `Finish`, or is silently
discarded when no reader is active. -/
def parseLoop (f : Flag) :
    Store → Option Reader → ReadStatus → List String → ParseResult × Store
  | s, _, _, [] => (ParseResult.ok, s)
  | s, reader, read_status, arg :: rest =>
    if arg = f.help then (ParseResult.helpExit 0, s)
    else
      match keysGet f.keys arg with
      | some item =>
        match (match reader with
               | some r => r.next_key
               | none => read_status) with
        | ReadStatus.Processing => (panicCall (orderErrMsg arg), s)
        | ReadStatus.Finish =>
            parseLoop f s (some (Reader.new item.value item.value_len))
              ReadStatus.Finish rest
      | none =>
        match reader with
        | some r =>
          match r.process arg s with
          | (_, s', ReadStatus.Finish) =>
              parseLoop f s' none ReadStatus.Finish rest
          | (r', s', ReadStatus.Processing) =>
              parseLoop f s' (some r') ReadStatus.Processing rest
        | none => parseLoop f s reader read_status rest

/-- `Flag::parse`: starts with no active reader and `read_status = Finish`,
walks the whole token list (`env::args()` is the `args` parameter, token 0
included).  `parse` takes `&mut self` in the source but never assigns to any
field of `self`; the embedding returns the flag alongside the result and the
final store to make that observable. -/
def Flag.parse (f : Flag) (s : Store) (args : List String) :
    ParseResult × Flag × Store :=
  let rs := parseLoop f s none ReadStatus.Finish args
  (rs.1, f, rs.2)

/-- Outcome of the value-reading macros (`read!`, `read_vector!`): either a
value or a printed error message together with the `std::process::exit`
status code. -/
inductive ReadResult (α : Type) where
  | ok (a : α)
  | exit (msg : String) (code : Nat)
deriving DecidableEq

/-- The `read!($v, $typ)` macro: a `Single` value is parsed by the target
type's parser (`None` models `Err` of `str::parse`), a failure or a `Multi`
shape prints an error and exits with status 0.  The `file!`/`line!` metadata
of the message is not modelled. -/
def read_as {α : Type} (parseFn : String → Option α) (v : Value) (s : Store) :
    ReadResult α :=
  match v.v with
  | ItemValue.Single a =>
      match parseFn (readCell s a) with
      | some x => ReadResult.ok x
      | none => ReadResult.exit "[ERROR] to type error" 0
  | ItemValue.Multi _ => ReadResult.exit "[ERROR] value is single" 0

/-- The `read_vector!($v)` macro: a `Multi` value yields its sequence of
cells, a `Single` shape prints an error and exits with status 0. -/
def read_vector (v : Value) : ReadResult (List Nat) :=
  match v.v with
  | ItemValue.Multi l => ReadResult.ok l
  | ItemValue.Single _ => ReadResult.exit "[ERROR] value is single" 0

/-- All cells registered in the flag's key map. -/
def Flag.regCells (f : Flag) : List Nat :=
  f.keys.foldr (fun kv acc => kv.2.value.cells ++ acc) []

/-- Iterated `Reader::process` over a token list, as the parse loop performs
it while a reader stays active (statuses are reported per step; the runs we
study do not drop the reader early). -/
def runReader : Reader → Store → List String → Reader × Store
  | r, s, [] => (r, s)
  | r, s, t :: ts => runReader (r.process t s).1 (r.process t s).2.1 ts

/-! Basic facts about the cell store. -/

theorem readCell_set_self (s : Store) (a : Nat) (t : String) (h : a < s.length) :
    readCell (s.set a t) a = t := by
  simp [readCell, List.getD_eq_getElem?_getD, List.getElem?_set, h]

theorem readCell_set_ne (s : Store) (a b : Nat) (t : String) (h : a ≠ b) :
    readCell (s.set a t) b = readCell s b := by
  simp [readCell, List.getD_eq_getElem?_getD, List.getElem?_set, h]

theorem readCell_append_lt (s u : Store) (b : Nat) (h : b < s.length) :
    readCell (s ++ u) b = readCell s b := by
  simp [readCell, List.getD_eq_getElem?_getD, List.getElem?_append, h]

theorem readCell_append_self (s : Store) (t : String) :
    readCell (s ++ [t]) s.length = t := by
  simp [readCell, List.getD_eq_getElem?_getD, List.getElem?_concat_length]

theorem readSeq_cons (s : Store) (a : Nat) (l : List Nat) :
    readSeq s (a :: l) = readCell s a :: readSeq s l := rfl

theorem readSeq_append (s : Store) (l₁ l₂ : List Nat) :
    readSeq s (l₁ ++ l₂) = readSeq s l₁ ++ readSeq s l₂ :=
  List.map_append _ _ _

theorem readSeq_length (s : Store) (l : List Nat) :
    (readSeq s l).length = l.length :=
  List.length_map _ _

theorem readSeq_set_not_mem (s : Store) (a : Nat) (t : String) (l : List Nat)
    (h : a ∉ l) : readSeq (s.set a t) l = readSeq s l := by
  induction l with
  | nil => rfl
  | cons x xs ih =>
    rw [readSeq_cons, readSeq_cons,
      readCell_set_ne _ _ _ _ (List.ne_of_not_mem_cons h),
      ih (List.not_mem_of_not_mem_cons h)]

theorem readSeq_store_append (s u : Store) (l : List Nat)
    (h : ∀ a ∈ l, a < s.length) : readSeq (s ++ u) l = readSeq s l := by
  induction l with
  | nil => rfl
  | cons x xs ih =>
    rw [readSeq_cons, readSeq_cons,
      readCell_append_lt _ _ _ (h x (List.mem_cons_self x xs)),
      ih (fun a ha => h a (List.mem_cons_of_mem _ ha))]

theorem readSeq_set_getD (s : Store) (l : List Nat) (idx : Nat) (t : String)
    (hidx : idx < l.length) (hnd : l.Nodup)
    (hb : l.getD idx 0 < s.length) :
    readSeq (s.set (l.getD idx 0) t) l = (readSeq s l).set idx t := by
  induction l generalizing idx with
  | nil => simp at hidx
  | cons x xs ih =>
    cases idx with
    | zero =>
      rw [List.getD_cons_zero] at hb ⊢
      rw [readSeq_cons, readSeq_cons, readCell_set_self _ _ _ hb,
        readSeq_set_not_mem _ _ _ _ (List.nodup_cons.mp hnd).1]
      rfl
    | succ n =>
      have hn : n < xs.length := by simpa using hidx
      rw [List.getD_cons_succ] at hb ⊢
      have hnx : xs.getD n 0 ≠ x := by
        rw [List.getD_eq_getElem _ _ hn]
        intro he
        exact (List.nodup_cons.mp hnd).1 (he ▸ List.getElem_mem hn)
      rw [readSeq_cons, readSeq_cons, readCell_set_ne _ _ _ _ hnx,
        ih n hn (List.nodup_cons.mp hnd).2 hb]
      rfl

/-- The sequence seen through freshly allocated consecutive cells is the
allocated default. -/
theorem readSeq_alloc (s0 : Store) (ds : List String) :
    readSeq (s0 ++ ds) (List.range' s0.length ds.length) = ds := by
  apply List.ext_getElem
    (by simp [readSeq_length, List.length_range'])
  intro i h1 h2
  have hr : i < (List.range' s0.length ds.length).length := by
    simpa [List.length_range'] using h2
  simp only [readSeq, List.getElem_map, List.getElem_range', one_mul]
  rw [readCell, List.getD_eq_getElem?_getD,
    List.getElem?_append_right (by omega), Nat.add_sub_cancel_left,
    List.getElem?_eq_getElem h2]
  rfl

/-! Generic list helpers for the overwrite step. -/

theorem take_succ_set (v : List String) (idx : Nat) (t : String)
    (h : idx < v.length) :
    (v.set idx t).take (idx + 1) = v.take idx ++ [t] := by
  induction v generalizing idx with
  | nil => simp at h
  | cons x xs ih =>
    cases idx with
    | zero => simp
    | succ n =>
      have hn : n < xs.length := by simpa using h
      simp [List.set_cons_succ, List.take_cons, ih n hn]

theorem drop_set_of_lt (v : List String) (idx n : Nat) (t : String)
    (h : idx < n) : (v.set idx t).drop n = v.drop n := by
  induction v generalizing idx n with
  | nil => simp
  | cons x xs ih =>
    cases n with
    | zero => omega
    | succ m =>
      cases idx with
      | zero => simp
      | succ k =>
        simp only [List.set_cons_succ, List.drop_succ_cons]
        exact ih k m (by omega)

theorem take_append_drop_formula (ts ds : List String) :
    (ts ++ ds.drop ts.length).take ds.length =
      ts.take ds.length ++ ds.drop (min ts.length ds.length) := by
  rcases le_or_lt ts.length ds.length with h | h
  · have hds : ds.length = ts.length + (ds.length - ts.length) := by omega
    rw [Nat.min_eq_left h, hds, List.take_append,
      List.take_of_length_le (by simp [List.length_drop]),
      List.take_of_length_le (by omega)]
  · rw [List.drop_eq_nil_of_le (Nat.le_of_lt h), List.append_nil,
      Nat.min_eq_right (Nat.le_of_lt h), List.drop_length, List.append_nil]

/-! Facts about the key map. -/

theorem keysGet_insert_self (ks : List (String × Item)) (key : String)
    (it : Item) : keysGet (keysInsert ks key it) key = some it := by
  induction ks with
  | nil => simp [keysInsert, keysGet]
  | cons kv rest ih =>
    obtain ⟨k, it'⟩ := kv
    by_cases h : k = key
    · simp [keysInsert, h, keysGet]
    · simp [keysInsert, h, keysGet, ih]

theorem keysGet_mem (ks : List (String × Item)) (key : String) (it : Item)
    (h : keysGet ks key = some it) : (key, it) ∈ ks := by
  induction ks with
  | nil => simp [keysGet] at h
  | cons kv rest ih =>
    obtain ⟨k, it'⟩ := kv
    by_cases hk : k = key
    · simp only [keysGet, if_pos hk] at h
      subst hk
      obtain rfl : it' = it := by injection h
      exact List.mem_cons_self _ _
    · simp only [keysGet, if_neg hk] at h
      exact List.mem_cons_of_mem _ (ih h)

theorem mem_regCells_of_mem (ks : List (String × Item)) (kv : String × Item)
    (h : kv ∈ ks) (a : Nat) (ha : a ∈ kv.2.value.cells) :
    a ∈ ks.foldr (fun kv acc => kv.2.value.cells ++ acc) [] := by
  induction ks with
  | nil => cases h
  | cons x rest ih =>
    rcases List.mem_cons.mp h with h | h
    · subst h
      exact List.mem_append.mpr (Or.inl ha)
    · exact List.mem_append.mpr (Or.inr (ih h))

theorem regCells_of_keysGet (f : Flag) (key : String) (it : Item)
    (h : keysGet f.keys key = some it) :
    ∀ a ∈ it.value.cells, a ∈ f.regCells :=
  fun a ha => mem_regCells_of_mem f.keys (key, it) (keysGet_mem _ _ _ h) a ha

/-! The behaviour of a reader driven over a `Multi` container: overwrites hit
the shared cells in place, appends allocate fresh cells visible only through
the reader's own container. -/

theorem runReader_multi (ts : List String) :
    ∀ (s : Store) (l : List Nat) (ar : Int) (idx : Nat),
      idx ≤ l.length → l.Nodup → (∀ a ∈ l, a < s.length) →
      ∃ extra : List Nat,
        (runReader ⟨ItemValue.Multi l, ar, idx⟩ s ts).1 =
          ⟨ItemValue.Multi (l ++ extra), ar, idx + ts.length⟩ ∧
        (∀ a ∈ extra, s.length ≤ a) ∧
        (l ++ extra).Nodup ∧
        (∀ a ∈ l ++ extra,
            a < (runReader ⟨ItemValue.Multi l, ar, idx⟩ s ts).2.length) ∧
        (l ++ extra).length = max l.length (idx + ts.length) ∧
        (runReader ⟨ItemValue.Multi l, ar, idx⟩ s ts).2.length =
          s.length + extra.length ∧
        readSeq (runReader ⟨ItemValue.Multi l, ar, idx⟩ s ts).2 (l ++ extra) =
          (readSeq s l).take idx ++ ts ++ (readSeq s l).drop (idx + ts.length) := by
  induction ts with
  | nil =>
    intro s l ar idx hle hnd hb
    refine ⟨[], ?_, by simp, by simpa using hnd, ?_, ?_, ?_, ?_⟩
    · simp [runReader]
    · simpa [runReader] using hb
    · simp [Nat.max_eq_left hle]
    · simp [runReader]
    · simp [runReader, List.take_append_drop]
  | cons t ts ih =>
    intro s l ar idx hle hnd hb
    have hidxarith : idx + (t :: ts).length = idx + 1 + ts.length := by
      simp [List.length_cons]; omega
    by_cases hlt : idx < l.length
    · have hstep : runReader ⟨ItemValue.Multi l, ar, idx⟩ s (t :: ts) =
          runReader ⟨ItemValue.Multi l, ar, idx + 1⟩
            (s.set (l.getD idx 0) t) ts := by
        simp [runReader, Reader.process, hlt]
      have haddr : l.getD idx 0 < s.length := by
        rw [List.getD_eq_getElem _ _ hlt]
        exact hb _ (List.getElem_mem hlt)
      obtain ⟨extra, h1, h2, h3, h4, h5, h6, h7⟩ :=
        ih (s.set (l.getD idx 0) t) l ar (idx + 1) hlt hnd
          (by simpa [List.length_set] using hb)
      rw [hidxarith, hstep]
      refine ⟨extra, h1, ?_, h3, h4, ?_, ?_, ?_⟩
      · intro a ha
        have := h2 a ha
        simpa [List.length_set] using this
      · simpa [List.length_cons] using h5
      · simpa [List.length_set] using h6
      · rw [h7, readSeq_set_getD s l idx t hlt hnd haddr,
          take_succ_set _ _ _ (by rwa [readSeq_length]),
          drop_set_of_lt _ _ _ _ (by omega)]
        simp [List.append_assoc]
    · have hidx : idx = l.length := le_antisymm hle (Nat.le_of_not_lt hlt)
      have hstep : runReader ⟨ItemValue.Multi l, ar, idx⟩ s (t :: ts) =
          runReader ⟨ItemValue.Multi (l ++ [s.length]), ar, idx + 1⟩
            (s ++ [t]) ts := by
        simp [runReader, Reader.process, hlt]
      have hnd2 : (l ++ [s.length]).Nodup := by
        rw [List.nodup_append]
        refine ⟨hnd, List.nodup_singleton _, fun a ha hmem => ?_⟩
        have h1 := hb a ha
        have h2 : a = s.length := by simpa using hmem
        omega
      have hb2 : ∀ a ∈ l ++ [s.length], a < (s ++ [t]).length := by
        intro a ha
        rcases List.mem_append.mp ha with h | h
        · have := hb a h
          simp [List.length_append]
          omega
        · have h2 : a = s.length := by simpa using h
          simp [List.length_append, h2]
      have hle2 : idx + 1 ≤ (l ++ [s.length]).length := by
        simp [List.length_append]
        omega
      obtain ⟨extra', h1, h2, h3, h4, h5, h6, h7⟩ :=
        ih (s ++ [t]) (l ++ [s.length]) ar (idx + 1) hle2 hnd2 hb2
      have hE : l ++ s.length :: extra' = (l ++ [s.length]) ++ extra' :=
        List.append_cons _ _ _
      rw [hidxarith, hstep]
      refine ⟨s.length :: extra', ?_, ?_, ?_, ?_, ?_, ?_, ?_⟩
      · rw [hE]
        exact h1
      · intro a ha
        rcases List.mem_cons.mp ha with h | h
        · omega
        · have := h2 a h
          simp [List.length_append] at this
          omega
      · rw [hE]
        exact h3
      · rw [hE]
        exact h4
      · have h5' := h5
        simp only [List.length_append, List.length_cons, List.length_nil] at h5' ⊢
        omega
      · have h6' := h6
        simp only [List.length_append, List.length_cons, List.length_nil] at h6' ⊢
        omega
      · rw [hE, h7]
        have hv : readSeq (s ++ [t]) (l ++ [s.length]) = readSeq s l ++ [t] := by
          rw [readSeq_append, readSeq_store_append s [t] l hb]
          simp [readSeq, readCell_append_self]
        rw [hv]
        have hlen : (readSeq s l ++ [t]).length = idx + 1 := by
          simp [readSeq_length]
          omega
        rw [List.take_of_length_le (le_of_eq hlen),
          List.drop_eq_nil_of_le (by rw [hlen]; omega),
          List.take_of_length_le (by simp [readSeq_length, hidx]),
          List.drop_eq_nil_of_le (by simp [readSeq_length]; omega)]
        simp [List.append_assoc]

/-! Pointwise facts about `Reader.process`. -/

theorem process_value_len (r : Reader) (arg : String) (s : Store) :
    (r.process arg s).1.value_len = r.value_len := rfl

theorem process_index (r : Reader) (arg : String) (s : Store) :
    (r.process arg s).1.index = r.index + 1 := rfl

theorem process_status_zero (r : Reader) (arg : String) (s : Store)
    (h : r.value_len = 0) : (r.process arg s).2.2 = ReadStatus.Processing := by
  simp [Reader.process, h]

/-- Each `process` call either overwrites one of the reader's own cells in
place, or allocates one fresh cell at the end of the store and appends it to
the reader's own container. -/
theorem process_writes (r : Reader) (arg : String) (s : Store) :
    (∃ a, a ∈ r.value.cells ∧ (r.process arg s).2.1 = s.set a arg ∧
        (r.process arg s).1.value.cells = r.value.cells) ∨
    ((r.process arg s).2.1 = s ++ [arg] ∧
     (r.process arg s).1.value.cells = r.value.cells ++ [s.length]) := by
  rcases r with ⟨v, ar, idx⟩
  cases v with
  | Single a =>
    left
    exact ⟨a, by simp [ItemValue.cells], by simp [Reader.process],
      by simp [Reader.process, ItemValue.cells]⟩
  | Multi l =>
    by_cases h : idx < l.length
    · left
      refine ⟨l.getD idx 0, ?_, ?_, ?_⟩
      · rw [List.getD_eq_getElem _ _ h]
        exact List.getElem_mem h
      · simp [Reader.process, h]
      · simp [Reader.process, h, ItemValue.cells]
    · right
      constructor <;> simp [Reader.process, h, ItemValue.cells]

/-! Facts about the whole parse loop. -/

/-- Every outcome of the parse loop is either normal return or a process
termination with exit status 0. -/
theorem parseLoop_code_zero (f : Flag) (ts : List String) :
    ∀ (s : Store) (rd : Option Reader) (rs : ReadStatus),
      (parseLoop f s rd rs ts).1 = ParseResult.ok ∨
      (parseLoop f s rd rs ts).1 = ParseResult.helpExit 0 ∨
      ∃ m, (parseLoop f s rd rs ts).1 = ParseResult.panicExit m 0 := by
  induction ts with
  | nil =>
    intro s rd rs
    left
    rfl
  | cons arg rest ih =>
    intro s rd rs
    by_cases hh : arg = f.help
    · right; left
      simp [parseLoop, hh]
    · cases hk : keysGet f.keys arg with
      | some item =>
        cases hrs : (match rd with
                     | some r => r.next_key
                     | none => rs) with
        | Processing =>
          right; right
          exact ⟨orderErrMsg arg, by simp [parseLoop, hh, hk, hrs, panicCall]⟩
        | Finish =>
          have := ih s (some (Reader.new item.value item.value_len))
            ReadStatus.Finish
          simpa [parseLoop, hh, hk, hrs] using this
      | none =>
        cases rd with
        | some r =>
          rcases hp : r.process arg s with ⟨r', s', st⟩
          cases st with
          | Finish =>
            have := ih s' none ReadStatus.Finish
            simpa [parseLoop, hh, hk, hp] using this
          | Processing =>
            have := ih s' (some r') ReadStatus.Processing
            simpa [parseLoop, hh, hk, hp] using this
        | none =>
          have := ih s none rs
          simpa [parseLoop, hh, hk] using this

/-- Frame property of the parse loop: a store position below the watermark
`n0` that is not a registered cell (and, by the invariant, not a cell of the
active reader) is never written. -/
theorem parseLoop_frame (f : Flag) (ts : List String) :
    ∀ (s : Store) (rd : Option Reader) (rs : ReadStatus) (n0 : Nat),
      n0 ≤ s.length →
      (∀ r, rd = some r → ∀ a ∈ r.value.cells, a ∈ f.regCells ∨ n0 ≤ a) →
      ∀ b, b < n0 → b ∉ f.regCells →
        readCell (parseLoop f s rd rs ts).2 b = readCell s b := by
  induction ts with
  | nil =>
    intro s rd rs n0 hn hinv b hb hbr
    rfl
  | cons arg rest ih =>
    intro s rd rs n0 hn hinv b hb hbr
    by_cases hh : arg = f.help
    · simp [parseLoop, hh]
    · cases hk : keysGet f.keys arg with
      | some item =>
        cases hrs : (match rd with
                     | some r => r.next_key
                     | none => rs) with
        | Processing => simp [parseLoop, hh, hk, hrs]
        | Finish =>
          have hinv2 : ∀ r, some (Reader.new item.value item.value_len) = some r →
              ∀ a ∈ r.value.cells, a ∈ f.regCells ∨ n0 ≤ a := by
            intro r hr a ha
            obtain rfl : Reader.new item.value item.value_len = r := by
              injection hr
            exact Or.inl (regCells_of_keysGet f arg item hk a ha)
          have := ih s (some (Reader.new item.value item.value_len))
            ReadStatus.Finish n0 hn hinv2 b hb hbr
          simpa [parseLoop, hh, hk, hrs] using this
      | none =>
        cases rd with
        | some r =>
          rcases hp : r.process arg s with ⟨r', s', st⟩
          have hw := process_writes r arg s
          rw [hp] at hw
          dsimp only at hw
          have hrinv : ∀ a ∈ r.value.cells, a ∈ f.regCells ∨ n0 ≤ a :=
            hinv r rfl
          have hsframe : readCell s' b = readCell s b := by
            rcases hw with ⟨a, ha, hs', _⟩ | ⟨hs', _⟩
            · rw [hs']
              refine readCell_set_ne _ _ _ _ ?_
              rcases hrinv a ha with h | h
              · intro he
                exact hbr (he ▸ h)
              · omega
            · rw [hs']
              exact readCell_append_lt _ _ _ (by omega)
          have hn2 : n0 ≤ s'.length := by
            rcases hw with ⟨a, ha, hs', _⟩ | ⟨hs', _⟩ <;> rw [hs']
            · simp [List.length_set]
              omega
            · simp [List.length_append]
              omega
          have hinv2 : ∀ a ∈ r'.value.cells, a ∈ f.regCells ∨ n0 ≤ a := by
            rcases hw with ⟨a0, ha0, _, hc⟩ | ⟨_, hc⟩
            · rw [hc]
              exact hrinv
            · rw [hc]
              intro a ha
              rcases List.mem_append.mp ha with h | h
              · exact hrinv a h
              · right
                have : a = s.length := by simpa using h
                omega
          cases st with
          | Finish =>
            have hrec := ih s' none ReadStatus.Finish n0 hn2
              (fun r h => Option.noConfusion h) b hb hbr
            have hred : (parseLoop f s (some r) rs (arg :: rest)).2 =
                (parseLoop f s' none ReadStatus.Finish rest).2 := by
              simp [parseLoop, hh, hk, hp]
            rw [hred, hrec, hsframe]
          | Processing =>
            have hrec := ih s' (some r') ReadStatus.Processing n0 hn2
              (by intro rr hrr a ha
                  obtain rfl : r' = rr := by injection hrr
                  exact hinv2 a ha) b hb hbr
            have hred : (parseLoop f s (some r) rs (arg :: rest)).2 =
                (parseLoop f s' (some r') ReadStatus.Processing rest).2 := by
              simp [parseLoop, hh, hk, hp]
            rw [hred, hrec, hsframe]
        | none =>
          have := ih s none rs n0 hn (fun r h => Option.noConfusion h) b hb hbr
          simpa [parseLoop, hh, hk] using this

/-- Once a zero-arity reader has absorbed at least one value token, every
further non-key token keeps it active, and the next key token panics. -/
theorem parseLoop_zero_arity_panic (f : Flag) (k2 : String)
    (rest : List String) (it2 : Item) (hk2help : k2 ≠ f.help)
    (hk2 : keysGet f.keys k2 = some it2) (ts : List String) :
    ∀ (s : Store) (r : Reader) (rs : ReadStatus),
      (∀ t ∈ ts, t ≠ f.help ∧ keysGet f.keys t = none) →
      r.value_len = 0 → r.index ≠ 0 →
      (parseLoop f s (some r) rs (ts ++ k2 :: rest)).1 =
        ParseResult.panicExit (orderErrMsg k2) 0 := by
  induction ts with
  | nil =>
    intro s r rs hts h0 hi
    have hnk : r.next_key = ReadStatus.Processing := by
      simp [Reader.next_key, h0, hi]
    simp [parseLoop, hk2help, hk2, hnk, panicCall]
  | cons t ts ih =>
    intro s r rs hts h0 hi
    obtain ⟨ht1, ht2⟩ := hts t (List.mem_cons_self t ts)
    rcases hp : r.process t s with ⟨r', s', st⟩
    have hst : st = ReadStatus.Processing := by
      have h := process_status_zero r t s h0
      rw [hp] at h
      exact h
    subst hst
    have h0' : r'.value_len = 0 := by
      have h := process_value_len r t s
      rw [hp] at h
      rw [h, h0]
    have hi' : r'.index ≠ 0 := by
      have h := process_index r t s
      rw [hp] at h
      rw [h]
      exact Nat.succ_ne_zero _
    have hrec := ih s' r' ReadStatus.Processing
      (fun u hu => hts u (List.mem_cons_of_mem _ hu)) h0' hi'
    simpa [parseLoop, ht1, ht2, hp, List.cons_append] using hrec

/-- The status computed by `process`: `Finish` exactly when the arity is
non-negative and the incremented index reaches it. -/
theorem process_status_iff (r : Reader) (arg : String) (s : Store) :
    (r.process arg s).2.2 = ReadStatus.Finish ↔
      0 ≤ r.value_len ∧ (r.index : Int) + 1 = r.value_len := by
  rw [show (r.process arg s).2.2 =
      (if r.value_len < 0 then ReadStatus.Processing
       else if r.index + 1 = r.value_len.toNat then ReadStatus.Finish
       else ReadStatus.Processing) from rfl]
  by_cases h1 : r.value_len < 0
  · simp only [if_pos h1]
    constructor
    · intro h
      exact absurd h (by simp)
    · intro h
      omega
  · by_cases h2 : r.index + 1 = r.value_len.toNat
    · simp only [if_neg h1, if_pos h2]
      constructor
      · intro _
        omega
      · intro _
        trivial
    · simp only [if_neg h1, if_neg h2]
      constructor
      · intro h
        exact absurd h (by simp)
      · intro h
        omega

/-- C2: `process(token)` writes the token into the value at position `index`
(for `Single` the one cell is overwritten; for `Multi` the cell at `index` is
overwritten when it exists, else a fresh cell holding the token is appended),
increments `index`, and returns `Finish` iff the arity is non-negative and the
incremented index equals it; for negative arity it always returns
`Processing`. -/
theorem process_spec :
    (∀ (a idx : Nat) (ar : Int) (arg : String) (s : Store),
        a < s.length →
        (Reader.process ⟨ItemValue.Single a, ar, idx⟩ arg s).1 =
            ⟨ItemValue.Single a, ar, idx + 1⟩ ∧
        readCell (Reader.process ⟨ItemValue.Single a, ar, idx⟩ arg s).2.1 a =
            arg ∧
        ((Reader.process ⟨ItemValue.Single a, ar, idx⟩ arg s).2.2 =
            ReadStatus.Finish ↔ 0 ≤ ar ∧ (idx : Int) + 1 = ar)) ∧
    (∀ (l : List Nat) (idx : Nat) (ar : Int) (arg : String) (s : Store),
        l.Nodup → (∀ a ∈ l, a < s.length) →
        (Reader.process ⟨ItemValue.Multi l, ar, idx⟩ arg s).1.index = idx + 1 ∧
        readSeq (Reader.process ⟨ItemValue.Multi l, ar, idx⟩ arg s).2.1
            ((Reader.process ⟨ItemValue.Multi l, ar, idx⟩ arg s).1.value.cells) =
          (if idx < l.length then (readSeq s l).set idx arg
           else readSeq s l ++ [arg]) ∧
        ((Reader.process ⟨ItemValue.Multi l, ar, idx⟩ arg s).2.2 =
            ReadStatus.Finish ↔ 0 ≤ ar ∧ (idx : Int) + 1 = ar)) := by
  constructor
  · intro a idx ar arg s ha
    refine ⟨rfl, ?_, process_status_iff ⟨ItemValue.Single a, ar, idx⟩ arg s⟩
    rw [show (Reader.process ⟨ItemValue.Single a, ar, idx⟩ arg s).2.1 =
        s.set a arg from rfl]
    exact readCell_set_self s a arg ha
  · intro l idx ar arg s hnd hb
    refine ⟨process_index _ _ _, ?_,
      process_status_iff ⟨ItemValue.Multi l, ar, idx⟩ arg s⟩
    by_cases h : idx < l.length
    · have h2 : (Reader.process ⟨ItemValue.Multi l, ar, idx⟩ arg s).2.1 =
          s.set (l.getD idx 0) arg := by
        simp [Reader.process, h]
      have h3 : (Reader.process ⟨ItemValue.Multi l, ar, idx⟩ arg s).1.value.cells
          = l := by
        simp [Reader.process, h, ItemValue.cells]
      rw [h2, h3, if_pos h]
      refine readSeq_set_getD s l idx arg h hnd ?_
      rw [List.getD_eq_getElem _ _ h]
      exact hb _ (List.getElem_mem h)
    · have h2 : (Reader.process ⟨ItemValue.Multi l, ar, idx⟩ arg s).2.1 =
          s ++ [arg] := by
        simp [Reader.process, h]
      have h3 : (Reader.process ⟨ItemValue.Multi l, ar, idx⟩ arg s).1.value.cells
          = l ++ [s.length] := by
        simp [Reader.process, h, ItemValue.cells]
      rw [h2, h3, if_neg h, readSeq_append, readSeq_store_append s [arg] l hb]
      simp [readSeq, readCell_append_self]

theorem process_spec_witness :
    (Reader.process ⟨ItemValue.Single 0, 1, 0⟩ "x" ["d"]).1 =
        ⟨ItemValue.Single 0, 1, 1⟩ ∧
    (Reader.process ⟨ItemValue.Multi [0], 2, 0⟩ "y" ["d"]).1.index = 1 :=
  ⟨(process_spec.1 0 0 1 "x" ["d"] (by decide)).1,
   (process_spec.2 [0] 0 2 "y" ["d"] (by decide) (by decide)).1⟩

/-- C3: `next_key` returns `Finish` iff the arity is negative or the index
equals the arity, and otherwise `Processing`; it takes the reader immutably,
so it modifies no state (in this embedding it is a pure function of the
reader). -/
theorem next_key_spec (r : Reader) :
    r.next_key = ReadStatus.Finish ↔
      (r.value_len < 0 ∨ (r.index : Int) = r.value_len) := by
  unfold Reader.next_key
  by_cases h1 : r.value_len < 0
  · simp only [if_pos h1]
    constructor
    · intro _
      exact Or.inl h1
    · intro _
      trivial
  · by_cases h2 : r.index ≠ r.value_len.toNat
    · simp only [if_neg h1, if_pos h2]
      constructor
      · intro h
        exact absurd h (by simp)
      · intro h
        omega
    · simp only [if_neg h1, if_neg h2]
      constructor
      · intro _
        omega
      · intro _
        trivial

/-- C4: when a registered key token is seen while the active reader's
`next_key` reports `Processing`, the parse loop prints "the parameters before
the `<key>` parameter are not matched" and terminates the process at once
(exit status 0), leaving the store untouched and processing none of the
remaining tokens. -/
theorem parse_ordering_error (f : Flag) (s : Store) (r : Reader)
    (rs : ReadStatus) (arg : String) (rest : List String) (item : Item)
    (hhelp : arg ≠ f.help) (hkey : keysGet f.keys arg = some item)
    (hnk : r.next_key = ReadStatus.Processing) :
    parseLoop f s (some r) rs (arg :: rest) =
      (ParseResult.panicExit (orderErrMsg arg) 0, s) := by
  simp [parseLoop, hhelp, hkey, hnk, panicCall]

theorem parse_ordering_error_witness :
    parseLoop ⟨"--help", [("-p", ⟨ItemValue.Multi [0, 1], "", false, 2⟩)], true⟩
      ["a", "b"] (some ⟨ItemValue.Multi [0, 1], 2, 0⟩) ReadStatus.Finish
      ["-p", "z"] =
      (ParseResult.panicExit (orderErrMsg "-p") 0, ["a", "b"]) :=
  parse_ordering_error _ ["a", "b"] ⟨ItemValue.Multi [0, 1], 2, 0⟩
    ReadStatus.Finish "-p" ["z"] ⟨ItemValue.Multi [0, 1], "", false, 2⟩
    (by decide) (by decide) (by decide)

/-- C1 evaluated on the failing input (code bug): register `-h` with default
`"localhost"` and parse `[prog, -h, foo]`.  The key is matched — the shared
cell is overwritten with `"foo"` — yet `has "-h"` still returns `false`
after parsing, because `parse` reads the matched item through an immutable
lookup and never sets its `is` flag; the claim's "before parsing" half does
hold.  No code path of the source ever stores `true` into `Item.is`. -/
theorem parse_never_marks_supplied :
    (Flag.new.reg_string [] "-h" "localhost" "host").2.1.has "-h" = false ∧
    (Flag.parse (Flag.new.reg_string [] "-h" "localhost" "host").2.1
        (Flag.new.reg_string [] "-h" "localhost" "host").2.2
        ["prog", "-h", "foo"]).1 = ParseResult.ok ∧
    readSeq
        (Flag.parse (Flag.new.reg_string [] "-h" "localhost" "host").2.1
          (Flag.new.reg_string [] "-h" "localhost" "host").2.2
          ["prog", "-h", "foo"]).2.2
        (Flag.new.reg_string [] "-h" "localhost" "host").1.v.cells =
      ["foo"] ∧
    (Flag.parse (Flag.new.reg_string [] "-h" "localhost" "host").2.1
        (Flag.new.reg_string [] "-h" "localhost" "host").2.2
        ["prog", "-h", "foo"]).2.1.has "-h" = false := by
  decide

/-- C7: for the fixed-arity sequence option of length 2 under `-packages`
with defaults `["libmath", "../third"]`, parsing `[prog, -packages, x, y]`
returns normally and the original handle's sequence reads `["x", "y"]` in
that order. -/
theorem fixed_vec_parse_example :
    (Flag.parse
        (Flag.new.reg_fixed_str_vec [] "-packages" ["libmath", "../third"]
          "packages").2.1
        (Flag.new.reg_fixed_str_vec [] "-packages" ["libmath", "../third"]
          "packages").2.2
        ["prog", "-packages", "x", "y"]).1 = ParseResult.ok ∧
    readSeq
        (Flag.parse
          (Flag.new.reg_fixed_str_vec [] "-packages" ["libmath", "../third"]
            "packages").2.1
          (Flag.new.reg_fixed_str_vec [] "-packages" ["libmath", "../third"]
            "packages").2.2
          ["prog", "-packages", "x", "y"]).2.2
        (Flag.new.reg_fixed_str_vec [] "-packages" ["libmath", "../third"]
          "packages").1.v.cells =
      ["x", "y"] := by
  decide

/-- C5: every process-terminating path carries exit status 0: the help
sentinel path, the fatal ordering error in the parse loop, the
type-conversion failure of the scalar read macro, and both shape-mismatch
errors of the read macros. -/
theorem exit_status_success :
    (∀ (f : Flag) (s : Store) (args : List String) (c : Nat),
        (Flag.parse f s args).1 = ParseResult.helpExit c → c = 0) ∧
    (∀ (f : Flag) (s : Store) (args : List String) (m : String) (c : Nat),
        (Flag.parse f s args).1 = ParseResult.panicExit m c → c = 0) ∧
    (∀ (α : Type) (pf : String → Option α) (v : Value) (s : Store)
        (m : String) (c : Nat),
        read_as pf v s = ReadResult.exit m c → c = 0) ∧
    (∀ (v : Value) (m : String) (c : Nat),
        read_vector v = ReadResult.exit m c → c = 0) := by
  refine ⟨?_, ?_, ?_, ?_⟩
  · intro f s args c h
    have h' : (parseLoop f s none ReadStatus.Finish args).1 =
        ParseResult.helpExit c := h
    rcases parseLoop_code_zero f args s none ReadStatus.Finish with
      h0 | h0 | ⟨m0, h0⟩
    · rw [h0] at h'
      exact ParseResult.noConfusion h'
    · rw [h0] at h'
      injection h' with hc
      omega
    · rw [h0] at h'
      exact ParseResult.noConfusion h'
  · intro f s args m c h
    have h' : (parseLoop f s none ReadStatus.Finish args).1 =
        ParseResult.panicExit m c := h
    rcases parseLoop_code_zero f args s none ReadStatus.Finish with
      h0 | h0 | ⟨m0, h0⟩
    · rw [h0] at h'
      exact ParseResult.noConfusion h'
    · rw [h0] at h'
      exact ParseResult.noConfusion h'
    · rw [h0] at h'
      injection h' with hm hc
      omega
  · intro α pf v s m c h
    rcases v with ⟨vv⟩
    cases vv with
    | Single a =>
      cases hp : pf (readCell s a) with
      | some x =>
        rw [show read_as pf ⟨ItemValue.Single a⟩ s =
            (match pf (readCell s a) with
             | some x => ReadResult.ok x
             | none => ReadResult.exit "[ERROR] to type error" 0) from rfl,
          hp] at h
        exact ReadResult.noConfusion h
      | none =>
        rw [show read_as pf ⟨ItemValue.Single a⟩ s =
            (match pf (readCell s a) with
             | some x => ReadResult.ok x
             | none => ReadResult.exit "[ERROR] to type error" 0) from rfl,
          hp] at h
        injection h with hm hc
        omega
    | Multi l =>
      injection h with hm hc
      omega
  · intro v m c h
    rcases v with ⟨vv⟩
    cases vv with
    | Multi l => exact ReadResult.noConfusion h
    | Single a =>
      injection h with hm hc
      omega

theorem exit_status_success_witness :
    (0 : Nat) = 0 ∧ (0 : Nat) = 0 ∧ (0 : Nat) = 0 ∧ (0 : Nat) = 0 :=
  ⟨exit_status_success.1 Flag.new [] ["--help"] 0 (by decide),
   exit_status_success.2.1
     ⟨"--help", [("-p", ⟨ItemValue.Multi [0], "", false, 1⟩)], true⟩ ["a"]
     ["-p", "-p"] (orderErrMsg "-p") 0 (by decide),
   exit_status_success.2.2.1 Nat (fun _ => none)
     (Value.new (ItemValue.Single 0)) ["notanumber"] "[ERROR] to type error" 0
     (by decide),
   exit_status_success.2.2.2 (Value.new (ItemValue.Single 0))
     "[ERROR] value is single" 0 (by decide)⟩

/-- C10: a parse run that returns normally leaves the registry itself (key
set, descriptions, arities, supplied flags, help sentinel, warning flag)
unchanged — `parse` only reads `self` — and its only store mutations are
writes through registered cells (plus allocations for the transient reader
clone, beyond the original store): every originally allocated address outside
the registered cells still reads the same string. -/
theorem parse_frame_effect (f : Flag) (s : Store) (args : List String)
    (_hok : (Flag.parse f s args).1 = ParseResult.ok) :
    (Flag.parse f s args).2.1 = f ∧
    ∀ b, b < s.length → b ∉ f.regCells →
      readCell (Flag.parse f s args).2.2 b = readCell s b := by
  refine ⟨rfl, fun b hb hbr => ?_⟩
  exact parseLoop_frame f args s none ReadStatus.Finish s.length le_rfl
    (fun r h => Option.noConfusion h) b hb hbr

theorem parse_frame_effect_witness :
    readCell (Flag.parse
        (Flag.new.reg_string [] "-h" "localhost" "host").2.1
        ["localhost", "zz"] ["prog", "-h", "foo"]).2.2 1 =
      readCell ["localhost", "zz"] 1 :=
  (parse_frame_effect (Flag.new.reg_string [] "-h" "localhost" "host").2.1
    ["localhost", "zz"] ["prog", "-h", "foo"] (by decide)).2 1 (by decide)
    (by decide)

/-- C9: a fixed-arity sequence option registered with an empty default has
arity 0, and `process` increments the index before comparing, so its reader
never finishes from `process`; hence once any non-key token follows that key,
the reader stays active with a nonzero index and the next registered key
token triggers the fatal ordering error, although the option required no
values at all. -/
theorem zero_arity_ordering_quirk (f : Flag) (s : Store)
    (prog k0 k2 : String) (ts rest : List String) (it0 it2 : Item)
    (hprog1 : prog ≠ f.help) (hprog2 : keysGet f.keys prog = none)
    (hk0help : k0 ≠ f.help) (hk0 : keysGet f.keys k0 = some it0)
    (_hv0 : it0.value = ItemValue.Multi []) (hl0 : it0.value_len = 0)
    (hts : ts ≠ []) (htsok : ∀ t ∈ ts, t ≠ f.help ∧ keysGet f.keys t = none)
    (hk2help : k2 ≠ f.help) (hk2 : keysGet f.keys k2 = some it2) :
    (∀ (r : Reader) (arg : String) (s' : Store), r.value_len = 0 →
        (r.process arg s').2.2 = ReadStatus.Processing) ∧
    (Flag.parse f s (prog :: k0 :: (ts ++ k2 :: rest))).1 =
      ParseResult.panicExit (orderErrMsg k2) 0 := by
  refine ⟨fun r arg s' h => process_status_zero r arg s' h, ?_⟩
  obtain ⟨t, ts', rfl⟩ := List.exists_cons_of_ne_nil hts
  obtain ⟨ht1, ht2⟩ := htsok t (List.mem_cons_self _ _)
  have e1 : (Flag.parse f s (prog :: k0 :: ((t :: ts') ++ k2 :: rest))).1 =
      (parseLoop f s none ReadStatus.Finish
        (k0 :: ((t :: ts') ++ k2 :: rest))).1 := by
    simp [Flag.parse, parseLoop, hprog1, hprog2]
  have e2 : (parseLoop f s none ReadStatus.Finish
        (k0 :: ((t :: ts') ++ k2 :: rest))).1 =
      (parseLoop f s (some (Reader.new it0.value it0.value_len))
        ReadStatus.Finish ((t :: ts') ++ k2 :: rest)).1 := by
    simp [parseLoop, hk0help, hk0]
  rcases hp : (Reader.new it0.value it0.value_len).process t s with ⟨r', s', st⟩
  have hst : st = ReadStatus.Processing := by
    have h := process_status_zero (Reader.new it0.value it0.value_len) t s
      (by simp [Reader.new, hl0])
    rw [hp] at h
    exact h
  subst hst
  have e3 : (parseLoop f s (some (Reader.new it0.value it0.value_len))
        ReadStatus.Finish ((t :: ts') ++ k2 :: rest)).1 =
      (parseLoop f s' (some r') ReadStatus.Processing (ts' ++ k2 :: rest)).1 := by
    simp [parseLoop, ht1, ht2, hp, List.cons_append]
  have h0' : r'.value_len = 0 := by
    have h := process_value_len (Reader.new it0.value it0.value_len) t s
    rw [hp] at h
    rw [h]
    simp [Reader.new, hl0]
  have hi' : r'.index ≠ 0 := by
    have h := process_index (Reader.new it0.value it0.value_len) t s
    rw [hp] at h
    rw [h]
    exact Nat.succ_ne_zero _
  rw [e1, e2, e3]
  exact parseLoop_zero_arity_panic f k2 rest it2 hk2help hk2 ts' s' r'
    ReadStatus.Processing (fun u hu => htsok u (List.mem_cons_of_mem _ hu))
    h0' hi'

theorem zero_arity_ordering_quirk_witness :
    (∀ (r : Reader) (arg : String) (s' : Store), r.value_len = 0 →
        (r.process arg s').2.2 = ReadStatus.Processing) ∧
    (Flag.parse
        ⟨"--help", [("-e", ⟨ItemValue.Multi [], "e", false, 0⟩),
                    ("-p", ⟨ItemValue.Single 0, "p", false, 1⟩)], true⟩
        ["localhost"] ("prog" :: "-e" :: (["v"] ++ "-p" :: []))).1 =
      ParseResult.panicExit (orderErrMsg "-p") 0 :=
  zero_arity_ordering_quirk
    ⟨"--help", [("-e", ⟨ItemValue.Multi [], "e", false, 0⟩),
                ("-p", ⟨ItemValue.Single 0, "p", false, 1⟩)], true⟩
    ["localhost"] "prog" "-e" "-p" ["v"] []
    ⟨ItemValue.Multi [], "e", false, 0⟩ ⟨ItemValue.Single 0, "p", false, 1⟩
    (by decide) (by decide) (by decide) (by decide) (by decide) (by decide)
    (by decide) (by decide) (by decide) (by decide)

/-- C6: for an open-ended (`arity < 0`) sequence option with a default of
length `L`, the registry's stored `ItemValue` and the returned handle are the
same container of cells; driving the reader (which works on a clone) over any
token list overwrites the shared cells at positions `0..L-1` — visible
through both the registry's sequence and the handle — while every cell
appended past `L-1` is a fresh address in the reader's own discarded clone,
never reflected in the registry's or the handle's sequence. -/
theorem lengthen_append_invisible (f0 : Flag) (s0 : Store) (key desc : String)
    (ds ts : List String) (hdl : Value) (f1 : Flag) (s1 : Store) (it : Item)
    (r' : Reader) (s' : Store)
    (hreg : Flag.reg_lengthen_str_vec f0 s0 key ds desc = (hdl, f1, s1))
    (hit : keysGet f1.keys key = some it)
    (hrun : runReader (Reader.new it.value it.value_len) s1 ts = (r', s')) :
    it.value = hdl.v ∧
    (∃ extra, r'.value.cells = hdl.v.cells ++ extra ∧
        ∀ a ∈ extra, s1.length ≤ a) ∧
    readSeq s' it.value.cells =
      ts.take ds.length ++ ds.drop (min ts.length ds.length) ∧
    readSeq s' hdl.v.cells =
      ts.take ds.length ++ ds.drop (min ts.length ds.length) ∧
    readSeq s' r'.value.cells = ts ++ ds.drop ts.length := by
  unfold Flag.reg_lengthen_str_vec Flag.register_with_desc toItemStrVec at hreg
  simp only [Prod.mk.injEq] at hreg
  obtain ⟨h1, h2, h3⟩ := hreg
  subst h1
  subst h2
  subst h3
  rw [keysGet_insert_self] at hit
  obtain rfl : (⟨ItemValue.Multi (List.range' s0.length ds.length), desc,
      false, -1⟩ : Item) = it := by
    injection hit
  dsimp only [Reader.new] at hrun
  obtain ⟨extra, g1, g2, g3, g4, g5, g6, g7⟩ :=
    runReader_multi ts (s0 ++ ds) (List.range' s0.length ds.length) (-1) 0
      (Nat.zero_le _) (List.nodup_range' _ _)
      (by
        intro a ha
        rw [List.mem_range'_1] at ha
        simp [List.length_append]
        omega)
  rw [hrun] at g1 g4 g6 g7
  dsimp only at g1 g4 g6 g7
  rw [readSeq_alloc s0 ds] at g7
  rw [List.take_zero, List.nil_append, Nat.zero_add] at g7
  have hcells : r'.value.cells = List.range' s0.length ds.length ++ extra := by
    rw [g1]
    rfl
  refine ⟨rfl, ⟨extra, hcells, g2⟩, ?_, ?_, ?_⟩
  · have hsplit : readSeq s' (List.range' s0.length ds.length) ++
        readSeq s' extra = ts ++ ds.drop ts.length := by
      rw [← readSeq_append, g7]
    have htake : readSeq s' (List.range' s0.length ds.length) =
        (ts ++ ds.drop ts.length).take ds.length := by
      have hlen : (readSeq s' (List.range' s0.length ds.length)).length =
          ds.length := by
        rw [readSeq_length, List.length_range']
      have h := List.take_left (readSeq s' (List.range' s0.length ds.length))
        (readSeq s' extra)
      rw [hlen, hsplit] at h
      exact h.symm
    rw [show (⟨ItemValue.Multi (List.range' s0.length ds.length), desc,
        false, -1⟩ : Item).value.cells = List.range' s0.length ds.length
        from rfl]
    rw [htake, take_append_drop_formula]
  · have hsplit : readSeq s' (List.range' s0.length ds.length) ++
        readSeq s' extra = ts ++ ds.drop ts.length := by
      rw [← readSeq_append, g7]
    have htake : readSeq s' (List.range' s0.length ds.length) =
        (ts ++ ds.drop ts.length).take ds.length := by
      have hlen : (readSeq s' (List.range' s0.length ds.length)).length =
          ds.length := by
        rw [readSeq_length, List.length_range']
      have h := List.take_left (readSeq s' (List.range' s0.length ds.length))
        (readSeq s' extra)
      rw [hlen, hsplit] at h
      exact h.symm
    rw [show (Value.new (ItemValue.Multi (List.range' s0.length
        ds.length))).v.cells = List.range' s0.length ds.length from rfl]
    rw [htake, take_append_drop_formula]
  · rw [hcells, g7]

theorem lengthen_append_invisible_witness :
    readSeq ["p", "q", "r"] [0, 1] = ["p", "q"] ∧
    readSeq ["p", "q", "r"] [0, 1, 2] = ["p", "q", "r"] :=
  ⟨(lengthen_append_invisible Flag.new [] "-address" "" ["a", "b"]
      ["p", "q", "r"] (Value.new (ItemValue.Multi [0, 1]))
      ⟨"--help", [("-address", ⟨ItemValue.Multi [0, 1], "", false, -1⟩)], true⟩
      ["a", "b"] ⟨ItemValue.Multi [0, 1], "", false, -1⟩
      ⟨ItemValue.Multi [0, 1, 2], -1, 3⟩ ["p", "q", "r"]
      (by decide) (by decide) (by decide)).2.2.1,
   (lengthen_append_invisible Flag.new [] "-address" "" ["a", "b"]
      ["p", "q", "r"] (Value.new (ItemValue.Multi [0, 1]))
      ⟨"--help", [("-address", ⟨ItemValue.Multi [0, 1], "", false, -1⟩)], true⟩
      ["a", "b"] ⟨ItemValue.Multi [0, 1], "", false, -1⟩
      ⟨ItemValue.Multi [0, 1, 2], -1, 3⟩ ["p", "q", "r"]
      (by decide) (by decide) (by decide)).2.2.2.2⟩

/-- C8: an option registered through the fixed-sequence registration gets
arity `A` equal to its default's length; while parsing feeds it at most `A`
values, its sequence keeps exactly `A` cells (the reader never appends, the
store never grows), the filled prefix holds the supplied tokens and the
unfilled trailing positions keep their default values, and the reader
reports its arity satisfied (`next_key = Finish`) exactly when all `A`
values arrived. -/
theorem fixed_arity_never_exceeds (f0 : Flag) (s0 : Store) (key desc : String)
    (ds vs : List String) (hdl : Value) (f1 : Flag) (s1 : Store) (it : Item)
    (r' : Reader) (s' : Store)
    (hreg : Flag.reg_fixed_str_vec f0 s0 key ds desc = (hdl, f1, s1))
    (hit : keysGet f1.keys key = some it)
    (hrun : runReader (Reader.new it.value it.value_len) s1 vs = (r', s'))
    (hvs : vs.length ≤ ds.length) :
    it.value_len = (ds.length : Int) ∧
    r'.value = it.value ∧
    r'.value.cells.length = ds.length ∧
    s'.length = s1.length ∧
    readSeq s' it.value.cells = vs ++ ds.drop vs.length ∧
    (r'.next_key = ReadStatus.Finish ↔ vs.length = ds.length) := by
  unfold Flag.reg_fixed_str_vec Flag.register_with_desc toItemStrVec at hreg
  simp only [Prod.mk.injEq] at hreg
  obtain ⟨h1, h2, h3⟩ := hreg
  subst h1
  subst h2
  subst h3
  rw [keysGet_insert_self] at hit
  obtain rfl : (⟨ItemValue.Multi (List.range' s0.length ds.length), desc,
      false, (ds.length : Int)⟩ : Item) = it := by
    injection hit
  dsimp only [Reader.new] at hrun
  obtain ⟨extra, g1, g2, g3, g4, g5, g6, g7⟩ :=
    runReader_multi vs (s0 ++ ds) (List.range' s0.length ds.length)
      (ds.length : Int) 0 (Nat.zero_le _) (List.nodup_range' _ _)
      (by
        intro a ha
        rw [List.mem_range'_1] at ha
        simp [List.length_append]
        omega)
  rw [hrun] at g1 g4 g6 g7
  dsimp only at g1 g4 g6 g7
  have hextra : extra = [] := by
    rw [List.length_append, List.length_range'] at g5
    have : extra.length = 0 := by omega
    exact List.length_eq_zero.mp this
  subst hextra
  rw [List.append_nil] at g1 g7
  rw [readSeq_alloc s0 ds] at g7
  rw [List.take_zero, List.nil_append, Nat.zero_add] at g7
  refine ⟨rfl, ?_, ?_, ?_, ?_, ?_⟩
  · rw [g1]
  · rw [g1]
    simp [ItemValue.cells, List.length_range']
  · rw [g6]
    simp
  · exact g7
  · rw [g1]
    rw [show (Reader.next_key ⟨ItemValue.Multi (List.range' s0.length
        ds.length), (ds.length : Int), 0 + vs.length⟩) =
        (if (ds.length : Int) < 0 then ReadStatus.Finish
         else if 0 + vs.length ≠ ((ds.length : Int)).toNat then
           ReadStatus.Processing
         else ReadStatus.Finish) from rfl]
    rw [if_neg (by omega)]
    by_cases he : vs.length = ds.length
    · rw [if_neg (by omega)]
      simp [he]
    · rw [if_pos (by omega)]
      constructor
      · intro h
        exact absurd h (by simp)
      · intro h
        exact absurd h he

theorem fixed_arity_never_exceeds_witness :
    (1 : Nat) ≤ 2 ∧ readSeq ["x", "../third"] [0, 1] = ["x", "../third"] :=
  ⟨by decide,
   (fixed_arity_never_exceeds Flag.new [] "-packages" ""
      ["libmath", "../third"] ["x"] (Value.new (ItemValue.Multi [0, 1]))
      ⟨"--help", [("-packages", ⟨ItemValue.Multi [0, 1], "", false, 2⟩)], true⟩
      ["libmath", "../third"] ⟨ItemValue.Multi [0, 1], "", false, 2⟩
      ⟨ItemValue.Multi [0, 1], 2, 1⟩ ["x", "../third"]
      (by decide) (by decide) (by decide) (by decide)).2.2.2.2.1⟩

end CommandOption
